import Mathlib

/-!
# A shallow embedding of the Radikant-JSON-C codec

This file translates the C sources of the Radikant-JSON-C repository
(`include/rjson.h`, which carries both the public header and the hardened
implementation) into Lean definitions, and proves properties of the
resulting embedding.

Modelling conventions:

* Bytes are natural numbers (`List ℕ` for byte strings).  C strings are
  NUL-terminated; the top-level entry point truncates its input at the
  first `0` byte, which matches the view a C function has of the buffer.
* IEEE-754 binary64 values are modelled by `F64`: a canonical dyadic
  triple `(sign, m, e)` with value `(-1)^sign * m * 2^e`, plus infinities
  and NaN.  `strtod` and `snprintf("%.17g", ·)` are external C-library
  collaborators of the repository; they are modelled from their documented
  behaviour on the platforms this repository targets (glibc / macOS libc):
  correctly rounded decimal-to-binary conversion with round-to-nearest,
  ties-to-even, `errno = ERANGE` on overflow *and* on underflow (C17
  7.22.1.3 makes the underflow `errno` implementation-defined; both glibc
  and macOS set it), and shortest-within-precision `%g` formatting.
* Heap behaviour is modelled by a state `St` threaded through the
  operations: an allocation oracle (a list of booleans; an empty list
  means every allocation succeeds) and a signed ledger `live` counting
  allocations minus frees.  Every `malloc`/`calloc`/fresh `realloc` bumps
  the ledger, every `free` (including the frees performed by `rjson_free`)
  decrements it.
-/

set_option maxRecDepth 4000
set_option exponentiation.threshold 2000

namespace RJson

/-! ## Allocation state: oracle and ledger -/

/-- Heap-interaction state: `oracle` decides the outcome of the next
allocations (`[]` = all succeed), `live` counts live allocations. -/
structure St where
  oracle : List Bool
  live : ℤ
deriving DecidableEq, Repr

/-- Pop the outcome of the next allocation from the oracle. -/
def allocTake : St → Bool × St
  | ⟨[], l⟩ => (true, ⟨[], l⟩)
  | ⟨b :: r, l⟩ => (b, ⟨r, l⟩)

/-- Adjust the live-allocation ledger. -/
def bump (st : St) (n : ℤ) : St := ⟨st.oracle, st.live + n⟩

/-- One `malloc`/`calloc`: consult the oracle; on success one allocation
becomes live. -/
def tryAlloc (st : St) : Bool × St :=
  let p := allocTake st
  (p.1, if p.1 then bump p.2 1 else p.2)

/-! ## binary64 model -/

/-- Bit length with an explicit recursion bound (the bound is consumed
one unit per halving, so any bound of at least `log₂ n + 1` is enough). -/
def bitlenF : ℕ → ℕ → ℕ
  | 0, _ => 0
  | f + 1, n => if n = 0 then 0 else bitlenF f (n / 2) + 1

/-- Bit length of a natural number (`0` for `0`). -/
def bitlen (n : ℕ) : ℕ := bitlenF n n

/-- Decide `2 ^ k ≤ a / b` for naturals `a`, `b > 0` and `k : ℤ`,
by cross multiplication. -/
def pow2LE (b : ℕ) (k : ℤ) (a : ℕ) : Bool :=
  if 0 ≤ k then b * 2 ^ k.toNat ≤ a else b ≤ a * 2 ^ (-k).toNat

/-- Bisection for `⌊log₂ (a/b)⌋`: maintains `2^lo ≤ a/b < 2^hi`. -/
def log2Bisect : ℕ → ℤ → ℤ → ℕ → ℕ → ℤ
  | 0, lo, _, _, _ => lo
  | f + 1, lo, hi, a, b =>
    if hi ≤ lo + 1 then lo
    else
      let mid := (lo + hi) / 2
      if pow2LE b mid a then log2Bisect f mid hi a b
      else log2Bisect f lo mid a b

/-- `⌊log₂ (M · 10^E)⌋` for `M ≥ 1`, via bisection on an integer bracket. -/
def floorLog2MD (M : ℕ) (E : ℤ) : ℤ :=
  let a : ℕ := if 0 ≤ E then M * 10 ^ E.toNat else M
  let b : ℕ := if 0 ≤ E then 1 else 10 ^ (-E).toNat
  let lo : ℤ := (bitlen M : ℤ) - 1 + 4 * min E 0
  let hi : ℤ := (bitlen M : ℤ) + 1 + 4 * max E 0
  log2Bisect (bitlen (hi - lo).toNat + 3) lo hi a b

/-- Round the ratio `a / b` (with `b > 0`) to the nearest integer,
ties to even. -/
def rnEvenRatio (a b : ℕ) : ℕ :=
  let q := a / b
  let r := a % b
  if 2 * r < b then q
  else if b < 2 * r then q + 1
  else if q % 2 = 0 then q else q + 1

/-- Round `M · 10^E / 2^e` to the nearest integer, ties to even. -/
def rnEvenScaled (M : ℕ) (E e : ℤ) : ℕ :=
  let a : ℕ := M * 10 ^ E.toNat * 2 ^ (-e).toNat
  let b : ℕ := 10 ^ (-E).toNat * 2 ^ e.toNat
  rnEvenRatio a b

/-- Model of a C `double`: canonical dyadic finite values
(`m = 0`, or `2^52 ≤ m < 2^53`, or `e = -1074 ∧ m < 2^52`),
infinities and NaN. -/
inductive F64 where
  | finite (neg : Bool) (m : ℕ) (e : ℤ)
  | inf (neg : Bool)
  | nan
deriving DecidableEq, Repr

/-- `isfinite` from `<math.h>`. -/
def F64.isFinite : F64 → Bool
  | .finite _ _ _ => true
  | _ => false

/-- Correctly rounded (round-to-nearest, ties-to-even) conversion of the
decimal value `(-1)^neg · M · 10^E` to binary64, the conversion performed
by a conforming `strtod` on a validated span.  Overflow yields infinity. -/
def decToF64 (neg : Bool) (M : ℕ) (E : ℤ) : F64 :=
  if M = 0 then .finite neg 0 (-1074)
  else if pow2LE ((if 0 ≤ E then 1 else 10 ^ (-E).toNat) * (2 ^ 54 - 1)) 970
      (if 0 ≤ E then M * 10 ^ E.toNat else M) then
    -- |value| ≥ (2^54 - 1) · 2^970 = 2^1024 - 2^970: rounds to infinity
    .inf neg
  else
    let L := floorLog2MD M E
    let e := max (-1074) (L - 52)
    let m := rnEvenScaled M E e
    if m = 2 ^ 53 then .finite neg (2 ^ 52) (e + 1) else .finite neg m e

/-- Does the dyadic `m · 2^e` equal the decimal `M · 10^E` exactly? -/
def dyadicEqDec (m : ℕ) (e : ℤ) (M : ℕ) (E : ℤ) : Bool :=
  m * 2 ^ e.toNat * 10 ^ (-E).toNat = M * 10 ^ E.toNat * 2 ^ (-e).toNat

/-- The `errno = ERANGE` underflow condition of `strtod` on glibc / macOS:
a nonzero decimal input whose rounded result is tiny (zero or subnormal)
and inexact. -/
def underflowERANGE (M : ℕ) (E : ℤ) : F64 → Bool
  | .finite _ m e => M ≠ 0 && m < 2 ^ 52 && !dyadicEqDec m e M E
  | _ => false

/-! ## The JSON value tree

The C `rjson_value` is a tagged union; arrays hold a counted buffer of
child pointers, objects hold two parallel counted buffers (keys and
values) of equal count.  The embedding mirrors the two parallel
sequences of the object representation. -/

mutual
/-- `rjson_value` (`include/rjson.h`): tagged variant of the six JSON
value kinds. -/
inductive Value where
  | vnull
  | vbool (b : Bool)
  | vnum (x : F64)
  | vstr (s : List ℕ)
  | varr (es : VList)
  | vobj (ks : List (List ℕ)) (vs : VList)
deriving DecidableEq, Repr

/-- The child-pointer sequence of an array or object. -/
inductive VList where
  | nil
  | cons (v : Value) (t : VList)
deriving DecidableEq, Repr
end

/-- Convert a `VList` to a plain list. -/
def VList.toList : VList → List Value
  | .nil => []
  | .cons v t => v :: VList.toList t

/-- Append one element at the end (the growth direction of
`rjson_array_add`). -/
def VList.snoc : VList → Value → VList
  | .nil, x => .cons x .nil
  | .cons v t, x => .cons v (VList.snoc t x)

/-- Length of a `VList` (the `count` field). -/
def VList.len : VList → ℕ
  | .nil => 0
  | .cons _ t => VList.len t + 1

mutual
/-- Number of heap allocations owned by a value: one `calloc` per node,
one `malloc` per string payload and per object key, one buffer per
non-empty element array, two buffers per non-empty object. -/
def allocCount : Value → ℤ
  | .vnull => 1
  | .vbool _ => 1
  | .vnum _ => 1
  | .vstr _ => 2
  | .varr es => 1 + (match es with | .nil => 0 | _ => 1) + allocCountL es
  | .vobj ks vs =>
      1 + (match ks with | [] => 0 | _ => 1) +
        (match vs with | .nil => 0 | _ => 1) + (ks.length : ℤ) + allocCountL vs

/-- Allocation count of a child sequence. -/
def allocCountL : VList → ℤ
  | .nil => 0
  | .cons v t => allocCount v + allocCountL t
end

mutual
/-- Structural nesting depth: number of array/object levels. -/
def treeDepth : Value → ℕ
  | .vnull => 0
  | .vbool _ => 0
  | .vnum _ => 0
  | .vstr _ => 0
  | .varr es => treeDepthL es + 1
  | .vobj _ vs => treeDepthL vs + 1

/-- Maximum nesting depth over a child sequence. -/
def treeDepthL : VList → ℕ
  | .nil => 0
  | .cons v t => max (treeDepth v) (treeDepthL t)
end

/-- `rjson_free` releasing a whole subtree: the ledger effect. -/
def freeTree (st : St) (v : Value) : St := bump st (-(allocCount v))

/-- Allocations owned by a parse result: none owns nothing. -/
def optCount : Option Value → ℤ
  | none => 0
  | some v => allocCount v

/-! ## Decoder helpers -/

/-- `skip_whitespace`: advance past RFC 8259 whitespace
(space, tab, LF, CR) only. -/
def skip_whitespace : List ℕ → List ℕ
  | [] => []
  | c :: r =>
    if c = 32 ∨ c = 9 ∨ c = 10 ∨ c = 13 then skip_whitespace r else c :: r

/-- Value of one hexadecimal digit byte, mirroring the three explicit
ranges tested in `unescape_string`. -/
def hexVal (c : ℕ) : Option ℕ :=
  if 48 ≤ c ∧ c ≤ 57 then some (c - 48)
  else if 97 ≤ c ∧ c ≤ 102 then some (c - 97 + 10)
  else if 65 ≤ c ∧ c ≤ 70 then some (c - 65 + 10)
  else none

/-- Accumulate four hex digits into a code unit, as the
`cp = (cp << 4) | v` loop does. -/
def hexVal4 (a b c d : ℕ) : Option ℕ :=
  match hexVal a, hexVal b, hexVal c, hexVal d with
  | some va, some vb, some vc, some vd =>
      some (((va * 16 + vb) * 16 + vc) * 16 + vd)
  | _, _, _, _ => none

/-- The UTF-8 encoder at the end of the `\u` branch of
`unescape_string`: 1-4 bytes depending on the code point. -/
def utf8Encode (cp : ℕ) : List ℕ :=
  if cp < 0x80 then [cp]
  else if cp < 0x800 then [0xC0 + cp / 64, 0x80 + cp % 64]
  else if cp < 0x10000 then
    [0xE0 + cp / 4096, 0x80 + cp / 64 % 64, 0x80 + cp % 64]
  else
    [0xF0 + cp / 262144, 0x80 + cp / 4096 % 64, 0x80 + cp / 64 % 64,
     0x80 + cp % 64]

/-- The copying loop of `unescape_string` over the raw span between the
quotes (pure part; the buffer `malloc`/`free` is accounted for in
`unescape_stringM`).  Returns `none` on any invalid escape, lone
surrogate, or `\u0000`. -/
def unescapeLoop : List ℕ → Option (List ℕ)
  | [] => some []
  | 92 :: rest =>
    (match rest with
     | [] => none  -- escape at end of span: safety check fails
     | 34 :: r2 => (unescapeLoop r2).map (34 :: ·)
     | 92 :: r2 => (unescapeLoop r2).map (92 :: ·)
     | 47 :: r2 => (unescapeLoop r2).map (47 :: ·)
     | 98 :: r2 => (unescapeLoop r2).map (8 :: ·)    -- \b
     | 102 :: r2 => (unescapeLoop r2).map (12 :: ·)  -- \f
     | 110 :: r2 => (unescapeLoop r2).map (10 :: ·)  -- \n
     | 114 :: r2 => (unescapeLoop r2).map (13 :: ·)  -- \r
     | 116 :: r2 => (unescapeLoop r2).map (9 :: ·)   -- \t
     | 117 :: r2 =>  -- \uHHHH
       (match r2 with
        | h1 :: h2 :: h3 :: h4 :: r6 =>
          (match hexVal4 h1 h2 h3 h4 with
           | none => none
           | some cp =>
             if 0xD800 ≤ cp ∧ cp ≤ 0xDBFF then
               -- high surrogate: try to pair with a following \uHHHH
               (match r6 with
                | 92 :: 117 :: l1 :: l2 :: l3 :: l4 :: r12 =>
                  (match hexVal4 l1 l2 l3 l4 with
                   | some low =>
                     if 0xDC00 ≤ low ∧ low ≤ 0xDFFF then
                       (unescapeLoop r12).map
                         (utf8Encode (0x10000 + (cp - 0xD800) * 1024 +
                           (low - 0xDC00)) ++ ·)
                     else none  -- cp stays a surrogate: rejected below
                   | none => none)  -- invalid low hex: lone surrogate
                | _ => none)  -- no following \u escape: lone surrogate
             else if (0xD800 ≤ cp ∧ cp ≤ 0xDFFF) ∨ cp = 0 then none
             else (unescapeLoop r6).map (utf8Encode cp ++ ·))
        | _ => none)  -- fewer than four hex digits before the span end
     | _ :: _ => none)  -- invalid escape specifier
  | c :: rest => (unescapeLoop rest).map (c :: ·)

/-- `unescape_string` with its buffer allocation: one `malloc` for the
output buffer, freed again on every failure path. -/
def unescape_stringM (span : List ℕ) (st : St) : Option (List ℕ) × St :=
  let p := tryAlloc st
  if p.1 then
    match unescapeLoop span with
    | none => (none, bump p.2 (-1))  -- free(out)
    | some bs => (some bs, p.2)
  else (none, p.2)

/-- The scanning loop of `parse_string`: find the closing quote, stepping
over backslash escapes, rejecting unescaped control bytes.  Returns the
raw span and the input after the closing quote. -/
def scanString : List ℕ → Option (List ℕ × List ℕ)
  | [] => none  -- unterminated string
  | c :: r =>
    if c = 34 then some ([], r)
    else if c < 32 then none  -- unescaped control character
    else if c = 92 then
      match r with
      | [] => none  -- unterminated escape
      | e :: r2 => (scanString r2).map (fun pr => (c :: e :: pr.1, pr.2))
    else (scanString r).map (fun pr => (c :: pr.1, pr.2))

/-- Result type of a sub-parser: parsed value (or failure), remaining
input, heap state. -/
abbrev PRes : Type := Option Value × List ℕ × St

/-- `parse_string` (`include/rjson.h`): skip the opening quote, scan to
the closing quote, unescape the span, wrap it in a string node. -/
def parse_string (inp : List ℕ) (st : St) : PRes :=
  match inp with
  | [] => (none, [], st)  -- not reachable: dispatch guarantees a quote
  | _ :: r =>  -- skip opening quote
    match scanString r with
    | none => (none, r, st)
    | some (span, rest) =>
      match unescape_stringM span st with
      | (none, st1) => (none, rest, st1)
      | (some bs, st1) =>
        let p := tryAlloc st1  -- create_value(RJSON_STRING)
        if p.1 then (some (.vstr bs), rest, p.2)
        else (none, rest, bump p.2 (-1))  -- free(str_content)

/-- Greedily scan decimal digit bytes. -/
def scanDigits : List ℕ → List ℕ × List ℕ
  | [] => ([], [])
  | c :: r =>
    if 48 ≤ c ∧ c ≤ 57 then
      let p := scanDigits r
      (c :: p.1, p.2)
    else ([], c :: r)

/-- Numeric value of a scanned digit string. -/
def digitsVal (ds : List ℕ) : ℕ := ds.foldl (fun a c => a * 10 + (c - 48)) 0

/-- The integer-part scan of `parse_number`: a leading zero must not be
followed by another digit, otherwise one or more digits. -/
def scanIntPart : List ℕ → Option (List ℕ × List ℕ)
  | 48 :: r =>
    (match r with
     | c :: _ => if 48 ≤ c ∧ c ≤ 57 then none else some ([48], r)
     | [] => some ([48], []))
  | c :: r =>
    if 48 ≤ c ∧ c ≤ 57 then some (scanDigits (c :: r)) else none
  | [] => none

/-- The fractional-part scan of `parse_number`: after `'.'` at least one
digit is required. -/
def scanFracPart : List ℕ → Option (List ℕ × List ℕ)
  | 46 :: r2 =>
    (match scanDigits r2 with
     | ([], _) => none
     | (fds, t3) => some (fds, t3))
  | l => some ([], l)

/-- The exponent-part scan of `parse_number`: after `'e'`/`'E'` an
optional sign, then at least one digit. -/
def scanExpPart : List ℕ → Option (Bool × List ℕ × List ℕ)
  | 101 :: r3 | 69 :: r3 =>
    (match scanDigits (match r3 with
        | 43 :: rr => rr | 45 :: rr => rr | _ => r3) with
     | ([], _) => none
     | (eds, t4) =>
       some ((match r3 with | 45 :: _ => true | _ => false), eds, t4))
  | l => some (false, [], l)

/-- `parse_number` (`include/rjson.h`): validate the strict RFC 8259
number grammar, then convert the span with `strtod` and reject when
`errno == ERANGE || !isfinite(num)`.  The locale-failsafe re-scan branch
(`end != *json`) is never taken in the C locale and is not modelled. -/
def parse_number (inp : List ℕ) (st : St) : PRes :=
  let neg : Bool := match inp with | 45 :: _ => true | _ => false
  let t1 := if neg then inp.tail else inp
  match scanIntPart t1 with
  | none => (none, inp, st)
  | some (ids, t2) =>
    match scanFracPart t2 with
    | none => (none, inp, st)
    | some (fds, t3) =>
      match scanExpPart t3 with
      | none => (none, inp, st)
      | some (esign, eds, t4) =>
        let M := digitsVal ids * 10 ^ fds.length + digitsVal fds
        let E : ℤ := (if esign then -(digitsVal eds : ℤ) else digitsVal eds)
          - fds.length
        match decToF64 neg M E with
        | .finite s m e =>
          if underflowERANGE M E (.finite s m e) then (none, t4, st)
          else
            let p := tryAlloc st  -- create_value(RJSON_NUMBER)
            (if p.1 then some (.vnum (.finite s m e)) else none, t4, p.2)
        | _ => (none, t4, st)  -- overflow: ERANGE / !isfinite

/-- `parse_literal` (`include/rjson.h`): byte-exact `true`, `false`,
`null`. -/
def parse_literal (inp : List ℕ) (st : St) : PRes :=
  if inp.take 4 = [116, 114, 117, 101] then  -- "true"
    let p := tryAlloc st
    (if p.1 then some (.vbool true) else none, inp.drop 4, p.2)
  else if inp.take 5 = [102, 97, 108, 115, 101] then  -- "false"
    let p := tryAlloc st
    (if p.1 then some (.vbool false) else none, inp.drop 5, p.2)
  else if inp.take 4 = [110, 117, 108, 108] then  -- "null"
    let p := tryAlloc st
    (if p.1 then some .vnull else none, inp.drop 4, p.2)
  else (none, inp, st)

/-! ## Mutators: `rjson_array_add`, `rjson_object_add` -/

/-- `rjson_array_add` (`include/rjson.h`): guard against a null / wrong
typed target and a null element, then grow the element buffer by one
`realloc` (a fresh allocation when the array was empty).  On `realloc`
failure the array is unchanged.  Returns the C result code, the target
after the call, and the heap state. -/
def rjson_array_add (st : St) (array element : Option Value) :
    ℤ × Option Value × St :=
  match array, element with
  | some (.varr es), some el =>
    let p := allocTake st  -- realloc(elements, new_count * sizeof…)
    if p.1 then
      (0, some (.varr (es.snoc el)),
        bump p.2 (match es with | .nil => 1 | _ => 0))
    else (-1, some (.varr es), p.2)
  | _, _ => (-1, array, st)

/-- `rjson_object_add` on the two parallel buffers (`keys`, `values`)
of the C object representation, after the argument guards: copy the key
(`malloc`), grow `keys` (`realloc`), grow `values` (`realloc`).  If the
second growth fails after the first succeeded, the C code has already
stored the grown buffer into `object->as.obj_val.keys`; it then calls
`realloc(object->as.obj_val.keys, (new_count - 1) * sizeof(char *))` and
discards the result.  On a previously empty object that is
`realloc(p, 0)`, which releases the buffer (glibc returns `NULL`, macOS
libc frees `p` and returns a fresh minimal block whose address is also
discarded), so `keys` is left as a non-null pointer to freed memory; the
final `Bool` of the result records this dangling state.  On a non-empty
object the shrink of a live buffer is modelled as succeeding in place,
leaving `keys` valid.  Returns the C result code, both sequences after
the call (the stored contents for the first `count` slots), the heap
state, and the dangling-`keys` flag. -/
def rjson_object_add_raw (st : St) (ks : List (List ℕ)) (vs : VList)
    (key : List ℕ) (value : Value) :
    ℤ × List (List ℕ) × VList × St × Bool :=
  let p1 := tryAlloc st  -- malloc new_key copy
  if p1.1 then
    let p2 := allocTake p1.2  -- realloc(keys, …)
    if p2.1 then
      let st2 := bump p2.2 (match ks with | [] => 1 | _ => 0)
      let p3 := allocTake st2  -- realloc(values, …)
      if p3.1 then
        (0, ks ++ [key], vs.snoc value,
          bump p3.2 (match vs with | .nil => 1 | _ => 0), false)
      else
        -- keys stays the grown buffer; the discarded shrink frees it
        -- when the object was empty (realloc(p, 0)); then free(new_key)
        (-1, ks, vs,
          bump p3.2 ((match ks with | [] => -1 | _ => 0) - 1),
          match ks with | [] => true | _ => false)
    else (-1, ks, vs, bump p2.2 (-1), false)  -- free(new_key)
  else (-1, ks, vs, p1.2, false)

/-- `rjson_object_add` (`include/rjson.h`): the argument guards in front
of `rjson_object_add_raw`.  The final `Bool` propagates the
dangling-`keys` state of the target object. -/
def rjson_object_add (st : St) (object : Option Value)
    (key : Option (List ℕ)) (value : Option Value) :
    ℤ × Option Value × St × Bool :=
  match object, key, value with
  | some (.vobj ks vs), some k, some v =>
    let r := rjson_object_add_raw st ks vs k v
    (r.1, some (.vobj r.2.1 r.2.2.1), r.2.2.2.1, r.2.2.2.2)
  | _, _, _ => (-1, object, st, false)

/-! ## The recursive-descent parser

`parse_value`, `parse_array` and `parse_object` recurse through each
other; the recursion is bounded by a fuel index (strictly decreasing on
every call).  `rjson_parse` supplies fuel proportional to the input
length, which dominates the number of calls the C parser performs. -/

/-- One fuel level of the mutually recursive parser: the five recursive
entry points. -/
structure Fns where
  value : List ℕ → ℕ → St → PRes
  arr : List ℕ → ℕ → St → PRes
  arrItems : List ℕ → ℕ → St → VList → PRes
  obj : List ℕ → ℕ → St → PRes
  objItems : List ℕ → ℕ → St → List (List ℕ) → VList → PRes

/-- Fuel exhaustion: every entry point fails; the item loops release the
container under construction (unreachable for the fuel budget supplied
by `rjson_parse`). -/
def fns0 : Fns where
  value inp _ st := (none, inp, st)
  arr inp _ st := (none, inp, st)
  arrItems inp _ st es := (none, inp, freeTree st (.varr es))
  obj inp _ st := (none, inp, st)
  objItems inp _ st ks vs := (none, inp, freeTree st (.vobj ks vs))

/-- One step of the parser: each field mirrors the corresponding C
function, with recursive calls going through the previous fuel level
`P`. -/
def fnsStep (P : Fns) : Fns where
  /- `parse_value`: skip whitespace, dispatch on the next byte. -/
  value inp d st :=
    let inp1 := skip_whitespace inp
    match inp1 with
    | [] => (none, [], st)  -- '\0': no case matches
    | c :: _ =>
      if c = 34 then parse_string inp1 st
      else if c = 91 then P.arr inp1 d st
      else if c = 123 then P.obj inp1 d st
      else if c = 116 ∨ c = 102 ∨ c = 110 then parse_literal inp1 st
      else if c = 45 ∨ (48 ≤ c ∧ c ≤ 57) then parse_number inp1 st
      else (none, inp1, st)
  /- `parse_array`: depth guard, skip '[', allocate the node, handle the
  empty array, otherwise enter the element loop. -/
  arr inp d st :=
    if 512 ≤ d then (none, inp, st)  -- RJSON_MAX_DEPTH
    else
      match inp with
      | [] => (none, [], st)  -- not reachable: dispatch saw '['
      | _ :: r =>
        let p := tryAlloc st  -- rjson_array_new
        if p.1 then
          let r1 := skip_whitespace r
          match r1 with
          | 93 :: r2 => (some (.varr .nil), r2, p.2)  -- empty array
          | _ => P.arrItems r1 d p.2 .nil
        else (none, r, p.2)
  /- the element loop of `parse_array`; `es` is the partially built
  element sequence owned by the array node. -/
  arrItems inp d st es :=
    match P.value inp (d + 1) st with
    | (none, rest, st1) => (none, rest, freeTree st1 (.varr es))
    | (some el, rest, st1) =>
      match rjson_array_add st1 (some (.varr es)) (some el) with
      | (code, _, st2) =>
        if code = 0 then
          let rest1 := skip_whitespace rest
          match rest1 with
          | 93 :: r2 => (some (.varr (es.snoc el)), r2, st2)
          | 44 :: r2 => P.arrItems r2 d st2 (es.snoc el)
          | _ => (none, rest1, freeTree st2 (.varr (es.snoc el)))
        else
          (none, rest, freeTree (freeTree st2 el) (.varr es))
  /- `parse_object`: depth guard, skip '{', allocate the node, handle the
  empty object, otherwise enter the member loop. -/
  obj inp d st :=
    if 512 ≤ d then (none, inp, st)  -- RJSON_MAX_DEPTH
    else
      match inp with
      | [] => (none, [], st)  -- not reachable: dispatch saw '{'
      | _ :: r =>
        let p := tryAlloc st  -- rjson_object_new
        if p.1 then
          let r1 := skip_whitespace r
          match r1 with
          | 125 :: r2 => (some (.vobj [] .nil), r2, p.2)  -- empty object
          | _ => P.objItems r1 d p.2 [] .nil
        else (none, r, p.2)
  /- the member loop of `parse_object`; `ks`, `vs` are the partially
  built parallel sequences owned by the object node. -/
  objItems inp d st ks vs :=
    let inp1 := skip_whitespace inp
    match inp1 with
    | 34 :: _ =>
      match parse_string inp1 st with
      | (none, rest, st1) => (none, rest, freeTree st1 (.vobj ks vs))
      | (some kv, rest, st1) =>
        match kv with
        | .vstr k =>
          let rest1 := skip_whitespace rest
          match rest1 with
          | 58 :: r2 =>  -- ':'
            (match P.value r2 (d + 1) st1 with
             | (none, r3, st2) =>
               (none, r3, freeTree (freeTree st2 (.vstr k)) (.vobj ks vs))
             | (some v, r3, st2) =>
               match rjson_object_add_raw st2 ks vs k v with
               | (code, ks1, vs1, st3, dang) =>
                 if code = 0 then
                   -- free(key_val->as.str_val); free(key_val)
                   let st4 := bump st3 (-2)
                   let r4 := skip_whitespace r3
                   match r4 with
                   | 125 :: r5 => (some (.vobj ks1 vs1), r5, st4)
                   | 44 :: r5 => P.objItems r5 d st4 ks1 vs1
                   | _ => (none, r4, freeTree st4 (.vobj ks1 vs1))
                 else
                   -- rjson_free(key_val); rjson_free(val);
                   -- rjson_free(obj_val): when the failed add left
                   -- obj->keys dangling, free(obj->keys) releases the
                   -- already-freed buffer a second time
                   (none, r3,
                     bump (freeTree (freeTree (freeTree st3 (.vstr k)) v)
                       (.vobj ks vs)) (if dang then -1 else 0)))
          | _ =>  -- expected colon
            (none, rest1, freeTree (freeTree st1 (.vstr k)) (.vobj ks vs))
        | _ =>  -- not reachable: parse_string only yields string nodes
          (none, rest, freeTree (freeTree st1 kv) (.vobj ks vs))
    | _ => (none, inp1, freeTree st (.vobj ks vs))  -- key must be a string

/-- The parser at a given fuel level. -/
def parseFns : ℕ → Fns
  | 0 => fns0
  | f + 1 => fnsStep (parseFns f)

/-- `rjson_parse` with explicit heap state: truncate at the first NUL
(the C view of the buffer), skip a UTF-8 BOM, parse one value at depth 0,
then require only trailing whitespace. -/
def rjson_parseSt (input : List ℕ) (oracle : List Bool) :
    Option Value × St :=
  let s := input.takeWhile (· ≠ 0)
  let s1 := if s.take 3 = [239, 187, 191] then s.drop 3 else s
  match (parseFns (2 * s1.length + 8)).value s1 0 ⟨oracle, 0⟩ with
  | (none, _, st) => (none, st)
  | (some v, rest, st) =>
    match skip_whitespace rest with
    | [] => (some v, st)
    | _ => (none, freeTree st v)  -- extra characters: rjson_free(result)

/-- `rjson_parse` (`include/rjson.h`), with every allocation
succeeding. -/
def rjson_parse (input : List ℕ) : Option Value :=
  (rjson_parseSt input []).1

/-! ## Accessors -/

/-- The scanning loop of `rjson_object_get_value` over the two parallel
buffers, in insertion order. -/
def objFind : List (List ℕ) → VList → List ℕ → Option Value
  | k :: ks, .cons v vs, key =>
    if k = key then some v else objFind ks vs key
  | _, _, _ => none

/-- `rjson_object_get_value` (`include/rjson.h`): `NULL` on a null or
non-object argument or a null key, otherwise the first value whose key
matches, scanning in insertion order. -/
def rjson_object_get_value (object : Option Value) (key : Option (List ℕ)) :
    Option Value :=
  match object, key with
  | some (.vobj ks vs), some k => objFind ks vs k
  | _, _ => none

/-! ## Encoder -/

/-- Lowercase hexadecimal digit byte. -/
def hexDigitLower (d : ℕ) : ℕ := if d < 10 then 48 + d else 87 + d

/-- The replacement chosen by the `switch` of `escape_string`:
`none` means the byte is emitted verbatim. -/
def escRepl (c : ℕ) : Option (List ℕ) :=
  if c = 34 then some [92, 34]        -- \"
  else if c = 92 then some [92, 92]   -- \\
  else if c = 8 then some [92, 98]    -- \b
  else if c = 12 then some [92, 102]  -- \f
  else if c = 10 then some [92, 110]  -- \n
  else if c = 13 then some [92, 114]  -- \r
  else if c = 9 then some [92, 116]   -- \t
  else if c < 32 then
    some [92, 117, 48, 48, hexDigitLower (c / 16), hexDigitLower (c % 16)]
  else none

/-- The chunking loop of `escape_string`: plain bytes are accumulated in
the pending chunk (`start..p` in the C code) and flushed when a byte with
a replacement is met or the string ends. -/
def escapeLoop (pending : List ℕ) : List ℕ → List ℕ
  | [] => pending
  | c :: rest =>
    if c = 0 then pending  -- while (*p): NUL terminates the C string
    else
      match escRepl c with
      | some rep => pending ++ rep ++ escapeLoop [] rest
      | none => escapeLoop (pending ++ [c]) rest

/-- `escape_string` (`include/rjson.h`): the quoted, escaped rendering
of a string payload. -/
def escape_string (s : List ℕ) : List ℕ := 34 :: escapeLoop [] s ++ [34]

/-- The per-byte escape table exactly as the specification states it
(structural bytes, two-character escapes, `\u00XX` with lowercase hex for
other control bytes, everything at or above `0x20` verbatim).  Used to
compare the chunking implementation against the specified policy. -/
def escapeByteSpec (c : ℕ) : List ℕ :=
  if c = 34 then [92, 34]
  else if c = 92 then [92, 92]
  else if c = 8 then [92, 98]
  else if c = 12 then [92, 102]
  else if c = 10 then [92, 110]
  else if c = 13 then [92, 114]
  else if c = 9 then [92, 116]
  else if c < 32 then
    [92, 117, 48, 48, hexDigitLower (c / 16), hexDigitLower (c % 16)]
  else [c]

/-- Fixed-width decimal rendering: the `k` low decimal digits of `n` as
ASCII bytes, most significant first. -/
def natDigitsFixed : ℕ → ℕ → List ℕ
  | 0, _ => []
  | k + 1, n => natDigitsFixed k (n / 10) ++ [48 + n % 10]

/-- Strip trailing `'0'` bytes (the `%g` zero stripping). -/
def stripTrailingZeros (l : List ℕ) : List ℕ :=
  (l.reverse.dropWhile (· = 48)).reverse

/-- Exponent field of `%e` style: at least two digits. -/
def expDigits (a : ℕ) : List ℕ :=
  if a < 100 then natDigitsFixed 2 a else natDigitsFixed 3 a

/-- Decide `10^X ≤ m · 2^e` by cross multiplication. -/
def pow10LEdyadic (X : ℤ) (m : ℕ) (e : ℤ) : Bool :=
  10 ^ (max X 0).toNat * 2 ^ (max (-e) 0).toNat ≤
    m * 2 ^ (max e 0).toNat * 10 ^ (max (-X) 0).toNat

/-- `⌊log₁₀ (m · 2^e)⌋` for `m ≥ 1`: estimate from the exact binary
magnitude `L` (`2^L ≤ m·2^e < 2^(L+1)`), then fix up by comparison. -/
def floorLog10Dyadic (m : ℕ) (e : ℤ) : ℤ :=
  let L : ℤ := (bitlen m : ℤ) - 1 + e
  let X0 : ℤ := L * 30103 / 100000
  if pow10LEdyadic (X0 + 2) m e then X0 + 2
  else if pow10LEdyadic (X0 + 1) m e then X0 + 1
  else if pow10LEdyadic X0 m e then X0
  else if pow10LEdyadic (X0 - 1) m e then X0 - 1
  else X0 - 2

/-- `snprintf(buf, _, "%.17g", x)` for a positive finite `x = m · 2^e`,
modelled from the C-standard `%g` rules: round to 17 significant decimal
digits (round-to-nearest, ties-to-even), use scientific style when the
decimal exponent is below `-4` or at least `17`, and strip trailing
fractional zeros. -/
def fmt17gPos (m : ℕ) (e : ℤ) : List ℕ :=
  let X := floorLog10Dyadic m e
  let a := m * 2 ^ (max e 0).toNat * 10 ^ (max (16 - X) 0).toNat
  let b := 2 ^ (max (-e) 0).toNat * 10 ^ (max (X - 16) 0).toNat
  let D0 := rnEvenRatio a b
  let X1 := if D0 = 10 ^ 17 then X + 1 else X
  let D := if D0 = 10 ^ 17 then 10 ^ 16 else D0
  let ds := natDigitsFixed 17 D
  if X1 < -4 ∨ 17 ≤ X1 then
    let frac := stripTrailingZeros (ds.drop 1)
    ds.take 1 ++ (if frac = [] then [] else 46 :: frac) ++
      [101, if X1 < 0 then 45 else 43] ++ expDigits X1.natAbs
  else if 0 ≤ X1 then
    let frac := stripTrailingZeros (ds.drop (X1.toNat + 1))
    ds.take (X1.toNat + 1) ++ (if frac = [] then [] else 46 :: frac)
  else
    [48, 46] ++ List.replicate (-X1 - 1).toNat 48 ++ stripTrailingZeros ds

/-- `serialize_number` (`include/rjson.h`): fail on any non-finite
number (`!isfinite`), otherwise append the `%.17g` rendering (the
64-byte buffer is never exceeded by a finite double, so the snprintf
length check never fires). -/
def serialize_number : F64 → Option (List ℕ)
  | .finite neg m e =>
    if m = 0 then some (if neg then [45, 48] else [48])
    else some ((if neg then [45] else []) ++ fmt17gPos m e)
  | _ => none

mutual
/-- `serialize_value` (`include/rjson.h`): depth-guarded recursive
serializer.  Buffer-growth allocations are modelled as succeeding. -/
def serialize_value : Value → ℕ → Option (List ℕ)
  | v, d =>
    if 512 ≤ d then none  -- RJSON_MAX_DEPTH
    else
      match v with
      | .vnull => some [110, 117, 108, 108]
      | .vbool true => some [116, 114, 117, 101]
      | .vbool false => some [102, 97, 108, 115, 101]
      | .vnum x => serialize_number x
      | .vstr s => some (escape_string s)
      | .varr es =>
        (serializeElems es (d + 1) true).map (fun bs => 91 :: bs ++ [93])
      | .vobj ks vs =>
        (serializeMembers ks vs (d + 1) true).map
          (fun bs => 123 :: bs ++ [125])

/-- The element loop of the array case: elements separated by commas. -/
def serializeElems : VList → ℕ → Bool → Option (List ℕ)
  | .nil, _, _ => some []
  | .cons v t, d, first =>
    match serialize_value v d, serializeElems t d false with
    | some b1, some b2 => some ((if first then [] else [44]) ++ b1 ++ b2)
    | _, _ => none

/-- The member loop of the object case: `key : value` pairs separated by
commas, keys emitted with `escape_string` in insertion order.  (The C
loop runs over the single `count` field; the two buffers always have
that common length.) -/
def serializeMembers : List (List ℕ) → VList → ℕ → Bool → Option (List ℕ)
  | k :: ks, .cons v t, d, first =>
    (match serialize_value v d, serializeMembers ks t d false with
     | some bv, some rest =>
       some ((if first then [] else [44]) ++ escape_string k ++ [58] ++
         bv ++ rest)
     | _, _ => none)
  | _, _, _, _ => some []
end

/-- `rjson_serialize` (`include/rjson.h`): guard against a null value,
serialize from depth 0.  `none` models the failure return with the
caller's output pointer untouched (no buffer is transferred); `some bs`
models success with ownership of `bs` transferred. -/
def rjson_serialize (value : Option Value) : Option (List ℕ) :=
  match value with
  | none => none
  | some v => serialize_value v 0

mutual
/-- Does the tree contain a NaN or infinity payload? -/
def containsNonFinite : Value → Bool
  | .vnum x => !x.isFinite
  | .varr es => containsNonFiniteL es
  | .vobj _ vs => containsNonFiniteL vs
  | _ => false

/-- `containsNonFinite` over a child sequence. -/
def containsNonFiniteL : VList → Bool
  | .nil => false
  | .cons v t => containsNonFinite v || containsNonFiniteL t
end

/-- The check the decoder performs after a high surrogate: does the
input continue with a `\uHHHH` escape whose value is a low surrogate
(`DC00..DFFF`)? -/
def lowSurrogateEscape : List ℕ → Bool
  | 92 :: 117 :: a :: b :: c :: d :: _ =>
    (match hexVal4 a b c d with
     | some v => decide (0xDC00 ≤ v ∧ v ≤ 0xDFFF)
     | none => false)
  | _ => false

mutual
/-- Well-formedness of the embedding of an object: the two parallel
buffers have the common `count` length, recursively (automatic in C,
where `count` is a single field). -/
def alignedV : Value → Bool
  | .varr es => alignedL es
  | .vobj ks vs => (ks.length == vs.len) && alignedL vs
  | _ => true

/-- `alignedV` over a child sequence. -/
def alignedL : VList → Bool
  | .nil => true
  | .cons v t => alignedV v && alignedL t
end

/-! ## Concrete input families -/

/-- `n` opening brackets, then `n` closing brackets, then `rest`. -/
def nestIn : ℕ → List ℕ → List ℕ
  | 0, rest => rest
  | n + 1, rest => 91 :: nestIn n (93 :: rest)

/-- `n` opening brackets followed by `n` closing brackets. -/
def nestInput (n : ℕ) : List ℕ := nestIn n []

/-- The array nested `n + 1` levels deep (`nestedArr 0` is the empty
array). -/
def nestedArr : ℕ → Value
  | 0 => .varr .nil
  | n + 1 => .varr (.cons (nestedArr n) .nil)

/-! ## Basic lemmas about the heap model -/

theorem bump_live (st : St) (n : ℤ) : (bump st n).live = st.live + n := rfl

theorem bump_oracle (st : St) (n : ℤ) : (bump st n).oracle = st.oracle := rfl

theorem allocCountL_snoc : ∀ (es : VList) (el : Value),
    allocCountL (es.snoc el) = allocCountL es + allocCount el
  | .nil, el => by simp [VList.snoc, allocCountL]
  | .cons v t, el => by
    simp [VList.snoc, allocCountL, allocCountL_snoc t el]; ring

theorem snoc_ne_nil (es : VList) (el : Value) : es.snoc el ≠ VList.nil := by
  cases es <;> simp [VList.snoc]

theorem treeDepthL_snoc : ∀ (es : VList) (el : Value),
    treeDepthL (es.snoc el) = max (treeDepthL es) (treeDepth el)
  | .nil, el => by simp [VList.snoc, treeDepthL]
  | .cons v t, el => by
    simp [VList.snoc, treeDepthL, treeDepthL_snoc t el]
    omega

theorem takeWhile_all (p : ℕ → Bool) (l : List ℕ) (h : ∀ x ∈ l, p x) :
    l.takeWhile p = l := by
  induction l with
  | nil => rfl
  | cons c r ih =>
    have hc := h c (by simp)
    simp [List.takeWhile_cons, hc, ih fun x hx => h x (by simp [hx])]

/-! ## C10: argument guards of the mutators -/

/-- C10.  `rjson_array_add` and `rjson_object_add` return the failure
code `-1` and leave the target (and the heap) unchanged whenever the
target is none, the target is not an array (respectively an object), or
the element (respectively key or value) is none; no type-confused
mutation happens. -/
theorem c10_add_argument_guards :
    (∀ st (arr el : Option Value),
      (arr = none ∨ (∀ es, arr ≠ some (Value.varr es)) ∨ el = none) →
      rjson_array_add st arr el = (-1, arr, st)) ∧
    (∀ st (obj : Option Value) (k : Option (List ℕ)) (v : Option Value),
      (obj = none ∨ (∀ ks vs, obj ≠ some (Value.vobj ks vs)) ∨ k = none ∨
        v = none) →
      rjson_object_add st obj k v = (-1, obj, st, false)) := by
  constructor
  · intro st arr el h
    match arr, el with
    | none, _ => rfl
    | some .vnull, _ | some (.vbool _), _ | some (.vnum _), _
    | some (.vstr _), _ | some (.vobj _ _), _ => rfl
    | some (.varr es), none => rfl
    | some (.varr es), some e =>
      rcases h with h | h | h
      · exact absurd h (by simp)
      · exact absurd rfl (h es)
      · exact absurd h (by simp)
  · intro st obj k v h
    match obj, k, v with
    | none, _, _ => rfl
    | some .vnull, _, _ | some (.vbool _), _, _ | some (.vnum _), _, _
    | some (.vstr _), _, _ | some (.varr _), _, _ => rfl
    | some (.vobj ks vs), none, _ => rfl
    | some (.vobj ks vs), some _, none => rfl
    | some (.vobj ks vs), some k0, some v0 =>
      rcases h with h | h | h | h
      · exact absurd h (by simp)
      · exact absurd rfl (h ks vs)
      · exact absurd h (by simp)
      · exact absurd h (by simp)

/-- Witness for `c10_add_argument_guards`: a null array target and a
null object value. -/
theorem c10_add_argument_guards_witness :
    rjson_array_add ⟨[], 0⟩ none (some .vnull) = (-1, none, ⟨[], 0⟩) ∧
    rjson_object_add ⟨[], 0⟩ (some (.vobj [] .nil)) (some [97]) none =
      (-1, some (.vobj [] .nil), ⟨[], 0⟩, false) :=
  ⟨c10_add_argument_guards.1 ⟨[], 0⟩ none (some .vnull) (Or.inl rfl),
   c10_add_argument_guards.2 ⟨[], 0⟩ (some (.vobj [] .nil)) (some [97]) none
     (Or.inr (Or.inr (Or.inr rfl)))⟩

/-! ## C6: the allocation-failure paths of `rjson_object_add` -/

/-- Ledger and content behaviour of `rjson_object_add_raw` on both
outcomes.  (The add's own frees balance its own allocations even on
failure; the dangling-`keys` state it can leave behind is charged to the
later `rjson_free` that performs the second release.) -/
theorem rjson_object_add_raw_spec (o : List Bool) (l : ℤ) (ks : List (List ℕ))
    (vs : VList) (k : List ℕ) (v : Value) :
    ((rjson_object_add_raw ⟨o, l⟩ ks vs k v).1 ≠ 0 →
      (rjson_object_add_raw ⟨o, l⟩ ks vs k v).2.1 = ks ∧
      (rjson_object_add_raw ⟨o, l⟩ ks vs k v).2.2.1 = vs ∧
      ((rjson_object_add_raw ⟨o, l⟩ ks vs k v).2.2.2.1).live = l) ∧
    ((rjson_object_add_raw ⟨o, l⟩ ks vs k v).1 = 0 →
      (rjson_object_add_raw ⟨o, l⟩ ks vs k v).2.1 = ks ++ [k] ∧
      (rjson_object_add_raw ⟨o, l⟩ ks vs k v).2.2.1 = vs.snoc v ∧
      ((rjson_object_add_raw ⟨o, l⟩ ks vs k v).2.2.2.1).live = l + 1 +
        (match ks with | [] => 1 | _ => 0) +
        (match vs with | .nil => 1 | _ => 0)) := by
  rcases o with _ | ⟨_ | _, _ | ⟨_ | _, _ | ⟨_ | _, rest⟩⟩⟩ <;>
    cases ks <;> cases vs <;>
    refine ⟨fun hfail => ?_, fun hsucc => ?_⟩ <;>
    simp_all [rjson_object_add_raw, tryAlloc, allocTake, bump, VList.snoc] <;>
    omega

/-- C6, refuted on the failure of the second parallel-array growth over
a previously empty object (allocation pattern: the key copy and the
`keys` growth succeed, the `values` growth fails): `rjson_object_add`
returns `-1` and count, stored keys and values are unchanged, but the
object's `keys` pointer — null before the call — is left referencing
the buffer that the discarded `realloc(p, 0)` shrink has already freed
(dangling flag `true`), so the object is not observably unchanged and
the next `rjson_free` on it releases that buffer a second time.  The
two earlier allocation-failure paths do leave the object untouched
(flag `false`). -/
theorem c6_object_add_second_growth_dangles (k : List ℕ) (v : Value)
    (l : ℤ) :
    rjson_object_add ⟨[true, true, false], l⟩ (some (.vobj [] .nil))
        (some k) (some v) =
      (-1, some (.vobj [] .nil), ⟨[], l⟩, true) ∧
    (∀ ks vs, rjson_object_add ⟨[false], l⟩ (some (.vobj ks vs))
        (some k) (some v) = (-1, some (.vobj ks vs), ⟨[], l⟩, false)) ∧
    (∀ ks vs, rjson_object_add ⟨[true, false], l⟩ (some (.vobj ks vs))
        (some k) (some v) = (-1, some (.vobj ks vs), ⟨[], l⟩, false)) := by
  refine ⟨?_, fun ks vs => ?_, fun ks vs => ?_⟩
  · simp [rjson_object_add, rjson_object_add_raw, tryAlloc, allocTake,
      bump, St.mk.injEq]
    omega
  · simp [rjson_object_add, rjson_object_add_raw, tryAlloc, allocTake, bump]
  · simp [rjson_object_add, rjson_object_add_raw, tryAlloc, allocTake, bump]

/-! ## C3: number conversion at the `strtod` boundary -/

/-- C3, behaviour of the embedded code at the decisive inputs.  The
claim states that a syntactically valid number fails exactly on
non-finite conversion and that underflow to zero is accepted; the code
rejects on `errno == ERANGE`, which the C libraries this repository is
built against also set on underflow, so `"1e-400"` is rejected as well.
`"1e309"` (overflow) is rejected and `"1.5"` is accepted, as the claim
states. -/
theorem c3_number_conversion_behaviour :
    rjson_parse [49, 101, 45, 52, 48, 48] = none ∧
    rjson_parse [49, 101, 51, 48, 57] = none ∧
    rjson_parse [49, 46, 53] =
      some (.vnum (.finite false (3 * 2 ^ 51) (-52))) :=
  ⟨rfl, rfl, rfl⟩

/-! ## C5: object lookup -/

theorem objFind_eq_find : ∀ (ks : List (List ℕ)) (vs : VList) (key : List ℕ),
    objFind ks vs key =
      ((ks.zip vs.toList).find? (fun p => p.1 == key)).map Prod.snd
  | [], vs, key => by cases vs <;> simp [objFind, VList.toList]
  | _ :: _, .nil, key => by simp [objFind, VList.toList]
  | k :: ks, .cons v vs, key => by
    by_cases h : k = key
    · simp [objFind, VList.toList, h]
    · simp [objFind, VList.toList, h, objFind_eq_find ks vs key]

/-- C5.  `rjson_object_get_value` scans the keys in insertion order and
returns the value paired with the first matching key (so after decoding
`{"a":1,"a":2}`, looking up `"a"` yields the value `1`), and returns
none when no key matches or when the argument is not an object. -/
theorem c5_object_get_first_match :
    (∀ (ks : List (List ℕ)) (vs : VList) (key : List ℕ),
      rjson_object_get_value (some (.vobj ks vs)) (some key) =
        ((ks.zip vs.toList).find? (fun p => p.1 == key)).map Prod.snd) ∧
    (∀ (v : Value) (key : Option (List ℕ)),
      (∀ ks vs, v ≠ .vobj ks vs) →
      rjson_object_get_value (some v) key = none) ∧
    (∀ key, rjson_object_get_value none key = none) ∧
    rjson_object_get_value
      (rjson_parse [123, 34, 97, 34, 58, 49, 44, 34, 97, 34, 58, 50, 125])
      (some [97]) = some (.vnum (.finite false (2 ^ 52) (-52))) := by
  refine ⟨?_, ?_, ?_, ?_⟩
  · intro ks vs key
    simpa [rjson_object_get_value] using objFind_eq_find ks vs key
  · intro v key h
    cases v with
    | vobj ks vs => exact absurd rfl (h ks vs)
    | vnull => cases key <;> rfl
    | vbool b => cases key <;> rfl
    | vnum x => cases key <;> rfl
    | vstr s => cases key <;> rfl
    | varr es => cases key <;> rfl
  · intro key; rfl
  · rfl

/-- Witness for `c5_object_get_first_match`: lookup in a two-entry
object with duplicate keys returns the first entry. -/
theorem c5_object_get_first_match_witness :
    rjson_object_get_value
      (some (.vobj [[97], [97]] (.cons .vnull (.cons (.vbool true) .nil))))
      (some [97]) =
      (((([[97], [97]] : List (List ℕ)).zip
        (VList.cons Value.vnull (.cons (.vbool true) .nil)).toList).find?
          (fun p => p.1 == [97])).map Prod.snd) ∧
    rjson_object_get_value (some (.vbool true)) (some [97]) = none := by
  have hne : ∀ (ks : List (List ℕ)) (vs : VList),
      Value.vbool true ≠ Value.vobj ks vs := fun ks vs h => Value.noConfusion h
  exact ⟨c5_object_get_first_match.1 [[97], [97]]
      (.cons .vnull (.cons (.vbool true) .nil)) [97],
    c5_object_get_first_match.2.1 (.vbool true) (some [97]) hne⟩

/-! ## C7: the string escaping policy -/

theorem escapeByteSpec_eq_escRepl (c : ℕ) :
    escapeByteSpec c = match escRepl c with | some r => r | none => [c] := by
  unfold escRepl escapeByteSpec
  split_ifs <;> rfl

theorem escapeLoop_spec : ∀ (s pending : List ℕ), (∀ x ∈ s, x ≠ 0) →
    escapeLoop pending s = pending ++ s.flatMap escapeByteSpec
  | [], pending, _ => by simp [escapeLoop]
  | c :: rest, pending, h => by
    have hc : c ≠ 0 := h c (by simp)
    have hrest : ∀ x ∈ rest, x ≠ 0 := fun x hx => h x (by simp [hx])
    have hspec := escapeByteSpec_eq_escRepl c
    match hr : escRepl c with
    | some rep =>
      rw [hr] at hspec
      simp [escapeLoop, hc, hr, escapeLoop_spec rest [] hrest, hspec]
    | none =>
      rw [hr] at hspec
      simp [escapeLoop, hc, hr,
        escapeLoop_spec rest (pending ++ [c]) hrest, hspec]

/-- C7.  `escape_string` encodes every byte of a (NUL-free) string
payload exactly by the specified table: `\"` and `\\` for quote and
backslash, the two-character escapes for 0x08, 0x0C, 0x0A, 0x0D, 0x09,
`\u00XX` with lowercase hex for every other byte below 0x20, and
verbatim output for every byte at or above 0x20 (solidus and UTF-8
continuation bytes included), all wrapped in quotes. -/
theorem c7_escape_policy (s : List ℕ) (h : ∀ x ∈ s, x ≠ 0) :
    escape_string s = 34 :: s.flatMap escapeByteSpec ++ [34] := by
  simp [escape_string, escapeLoop_spec s [] h]

/-- Witness for `c7_escape_policy`: the one-byte string `0x01` encodes
as `"\u0001"`, and `Line\nBreak\tTab` uses the two-character
escapes. -/
theorem c7_escape_policy_witness :
    escape_string [1] = [34, 92, 117, 48, 48, 48, 49, 34] ∧
    escape_string
        [76, 105, 110, 101, 10, 66, 114, 101, 97, 107, 9, 84, 97, 98] =
      [34, 76, 105, 110, 101, 92, 110, 66, 114, 101, 97, 107, 92, 116,
        84, 97, 98, 34] :=
  ⟨(c7_escape_policy [1] (by decide)).trans (by rfl),
   (c7_escape_policy
      [76, 105, 110, 101, 10, 66, 114, 101, 97, 107, 9, 84, 97, 98]
      (by decide)).trans (by rfl)⟩

/-! ## C8: non-finite numbers make the encoder fail -/

mutual
theorem serializeV_nonfinite : ∀ (v : Value), alignedV v = true →
    containsNonFinite v = true → ∀ d, serialize_value v d = none
  | .vnull, _, h, _ => by simp [containsNonFinite] at h
  | .vbool b, _, h, _ => by simp [containsNonFinite] at h
  | .vstr s, _, h, _ => by simp [containsNonFinite] at h
  | .vnum x, _, h, d => by
    cases x with
    | finite neg m e => simp [containsNonFinite, F64.isFinite] at h
    | inf neg => by_cases hd : 512 ≤ d <;> simp [serialize_value, hd, serialize_number]
    | nan => by_cases hd : 512 ≤ d <;> simp [serialize_value, hd, serialize_number]
  | .varr es, ha, h, d => by
    by_cases hd : 512 ≤ d
    · simp [serialize_value, hd]
    · have hes := serializeL_nonfinite es (by simpa [alignedV] using ha)
        (by simpa [containsNonFinite] using h) (d + 1) true
      simp [serialize_value, hd, hes]
  | .vobj ks vs, ha, h, d => by
    by_cases hd : 512 ≤ d
    · simp [serialize_value, hd]
    · have ha1 : ks.length = vs.len ∧ alignedL vs = true := by
        simpa [alignedV] using ha
      have hvs := serializeM_nonfinite ks vs ha1.1 ha1.2
        (by simpa [containsNonFinite] using h) (d + 1) true
      simp [serialize_value, hd, hvs]

theorem serializeL_nonfinite : ∀ (es : VList), alignedL es = true →
    containsNonFiniteL es = true → ∀ d first, serializeElems es d first = none
  | .nil, _, h, _, _ => by simp [containsNonFiniteL] at h
  | .cons v t, ha, h, d, first => by
    have ha1 : alignedV v = true ∧ alignedL t = true := by
      simpa [alignedL] using ha
    have h1 : containsNonFinite v = true ∨ containsNonFiniteL t = true := by
      simpa [containsNonFiniteL] using h
    rcases h1 with h1 | h1
    · have := serializeV_nonfinite v ha1.1 h1 d
      simp [serializeElems, this]
    · have := serializeL_nonfinite t ha1.2 h1 d false
      simp [serializeElems, this]

theorem serializeM_nonfinite : ∀ (ks : List (List ℕ)) (vs : VList),
    ks.length = vs.len → alignedL vs = true →
    containsNonFiniteL vs = true → ∀ d first,
    serializeMembers ks vs d first = none
  | [], vs, hlen, _, h, _, _ => by
    cases vs with
    | nil => simp [containsNonFiniteL] at h
    | cons v t => simp [VList.len] at hlen
  | k :: ks, .nil, _, _, h, _, _ => by simp [containsNonFiniteL] at h
  | k :: ks, .cons v t, hlen, ha, h, d, first => by
    have ha1 : alignedV v = true ∧ alignedL t = true := by
      simpa [alignedL] using ha
    have hlen1 : ks.length = t.len := by
      simpa [VList.len] using hlen
    have h1 : containsNonFinite v = true ∨ containsNonFiniteL t = true := by
      simpa [containsNonFiniteL] using h
    rcases h1 with h1 | h1
    · have := serializeV_nonfinite v ha1.1 h1 d
      simp [serializeMembers, this]
    · have := serializeM_nonfinite ks t hlen1 ha1.2 h1 d false
      simp [serializeMembers, this]
end

/-- C8.  `serialize_number` fails exactly on the non-finite doubles and
formats a finite nonzero number with the 17-significant-digit `%.17g`
rendering; consequently `rjson_serialize` on any (well-formed) tree
containing a NaN or infinity payload returns the failure signal and no
buffer is transferred to the caller. -/
theorem c8_nonfinite_serialize_fails :
    (∀ x : F64, serialize_number x = none ↔ x.isFinite = false) ∧
    (∀ (neg : Bool) (m : ℕ) (e : ℤ), m ≠ 0 →
      serialize_number (.finite neg m e) =
        some ((if neg then [45] else []) ++ fmt17gPos m e)) ∧
    (∀ v : Value, alignedV v = true → containsNonFinite v = true →
      rjson_serialize (some v) = none) := by
  refine ⟨?_, ?_, ?_⟩
  · intro x
    cases x with
    | finite neg m e =>
      by_cases hm : m = 0 <;> simp [serialize_number, hm, F64.isFinite]
    | inf neg => simp [serialize_number, F64.isFinite]
    | nan => simp [serialize_number, F64.isFinite]
  · intro neg m e hm
    simp [serialize_number, hm]
  · intro v ha h
    have := serializeV_nonfinite v ha h 0
    simpa [rjson_serialize] using this

/-- Witness for `c8_nonfinite_serialize_fails`: a bare NaN payload. -/
theorem c8_nonfinite_serialize_fails_witness :
    serialize_number F64.nan = none ∧
    rjson_serialize (some (.vnum .nan)) = none :=
  ⟨(c8_nonfinite_serialize_fails.1 F64.nan).2 rfl,
   c8_nonfinite_serialize_fails.2.2 (.vnum .nan) rfl rfl⟩

/-! ## C4: surrogate-pair handling in string unescaping -/

/-- C4.  In decoded string bodies: a `\uHHHH` escape decoding to a high
surrogate must be immediately followed by a `\uHHHH` escape decoding to
a low surrogate, in which case the pair decodes to the single code point
`U+10000 + ((high-D800)<<10) + (low-DC00)` re-encoded as UTF-8; a high
surrogate not so followed makes the decode fail, and so does a low
surrogate not preceded by a high surrogate. -/
theorem c4_surrogate_pairs :
    (∀ h1 h2 h3 h4 l1 l2 l3 l4 (rest : List ℕ) hv lv,
      hexVal4 h1 h2 h3 h4 = some hv → 0xD800 ≤ hv → hv ≤ 0xDBFF →
      hexVal4 l1 l2 l3 l4 = some lv → 0xDC00 ≤ lv → lv ≤ 0xDFFF →
      unescapeLoop (92 :: 117 :: h1 :: h2 :: h3 :: h4 ::
          92 :: 117 :: l1 :: l2 :: l3 :: l4 :: rest) =
        (unescapeLoop rest).map
          (utf8Encode (0x10000 + (hv - 0xD800) * 1024 + (lv - 0xDC00)) ++ ·)) ∧
    (∀ h1 h2 h3 h4 (rest : List ℕ) hv,
      hexVal4 h1 h2 h3 h4 = some hv → 0xD800 ≤ hv → hv ≤ 0xDBFF →
      lowSurrogateEscape rest = false →
      unescapeLoop (92 :: 117 :: h1 :: h2 :: h3 :: h4 :: rest) = none) ∧
    (∀ h1 h2 h3 h4 (rest : List ℕ) lv,
      hexVal4 h1 h2 h3 h4 = some lv → 0xDC00 ≤ lv → lv ≤ 0xDFFF →
      unescapeLoop (92 :: 117 :: h1 :: h2 :: h3 :: h4 :: rest) = none) := by
  refine ⟨?_, ?_, ?_⟩
  · intro h1 h2 h3 h4 l1 l2 l3 l4 rest hv lv hhv hv1 hv2 hlv hl1 hl2
    simp only [unescapeLoop, hhv, hlv]
    rw [if_pos ⟨hv1, hv2⟩, if_pos ⟨hl1, hl2⟩]
  · intro h1 h2 h3 h4 rest hv hhv hv1 hv2 hlow
    simp only [unescapeLoop, hhv]
    rw [if_pos ⟨hv1, hv2⟩]
    split
    · rename_i a b c d r12
      simp only [lowSurrogateEscape] at hlow
      rcases hma : hexVal4 a b c d with _ | low
      · simp [hma]
      · rw [hma] at hlow
        simp only [] at hlow
        simp [hma, of_decide_eq_false hlow]
    · rfl
  · intro h1 h2 h3 h4 rest lv hhv hl1 hl2
    simp only [unescapeLoop, hhv]
    rw [if_neg (by omega), if_pos (Or.inl ⟨by omega, hl2⟩)]

/-- Witness for `c4_surrogate_pairs`: `"\uD83D\uDE00"` decodes to the
four UTF-8 bytes `F0 9F 98 80`; the lone high surrogate `"\uD800"` and
the lone low surrogate `"\uDC00"` fail. -/
theorem c4_surrogate_pairs_witness :
    unescapeLoop [92, 117, 68, 56, 51, 68, 92, 117, 68, 69, 48, 48] =
      some [240, 159, 152, 128] ∧
    unescapeLoop [92, 117, 68, 56, 48, 48] = none ∧
    unescapeLoop [92, 117, 68, 67, 48, 48] = none := by
  refine ⟨?_, ?_, ?_⟩
  · exact (c4_surrogate_pairs.1 68 56 51 68 68 69 48 48 [] 0xD83D 0xDE00
      (by rfl) (by decide) (by decide) (by rfl) (by decide)
      (by decide)).trans (by rfl)
  · exact c4_surrogate_pairs.2.1 68 56 48 48 [] 0xD800 (by rfl) (by decide)
      (by decide) (by rfl)
  · exact c4_surrogate_pairs.2.2 68 67 48 48 [] 0xDC00 (by rfl) (by decide)
      (by decide)

/-! ## Ledger and shape facts for the leaf parsers -/

theorem allocTake_live (st : St) : (allocTake st).2.live = st.live := by
  cases st with | mk o l => cases o <;> rfl

theorem tryAlloc_live (st : St) :
    (tryAlloc st).2.live = st.live + (if (tryAlloc st).1 then 1 else 0) := by
  cases st with | mk o l =>
  cases o with
  | nil => simp [tryAlloc, allocTake, bump]
  | cons b r => cases b <;> simp [tryAlloc, allocTake, bump]

theorem unescape_stringM_live (span : List ℕ) (st : St) :
    ((unescape_stringM span st).2).live = st.live +
      (match (unescape_stringM span st).1 with
       | none => 0
       | some _ => 1) := by
  have ht := tryAlloc_live st
  unfold unescape_stringM
  rcases hp : tryAlloc st with ⟨ok, st1⟩
  rw [hp] at ht
  cases ok with
  | false => simpa using ht
  | true =>
    rcases hu : unescapeLoop span with _ | bs <;>
      simp_all [bump_live]

theorem parse_string_spec (inp : List ℕ) (st : St) :
    ((parse_string inp st).2.2).live =
      st.live + optCount (parse_string inp st).1 ∧
    ∀ v, (parse_string inp st).1 = some v → ∃ bs, v = Value.vstr bs := by
  unfold parse_string
  rcases inp with _ | ⟨c, r⟩
  · simp [optCount]
  · rcases hs : scanString r with _ | ⟨span, rest⟩ <;> simp only [hs]
    · simp [optCount]
    · have hm := unescape_stringM_live span st
      rcases hu : unescape_stringM span st with ⟨ob, st1⟩
      rw [hu] at hm
      cases ob with
      | none =>
        have hm1 : st1.live = st.live := by simpa using hm
        simp [optCount, hm1]
      | some bs =>
        have hm1 : st1.live = st.live + 1 := by simpa using hm
        have ht := tryAlloc_live st1
        rcases hp : tryAlloc st1 with ⟨ok, st2⟩
        rw [hp] at ht
        simp only [hp]
        cases ok with
        | false =>
          simp at ht
          refine ⟨?_, ?_⟩
          · simp only [Bool.false_eq_true, if_false, optCount, bump_live]
            omega
          · intro v hv
            simp at hv
        | true =>
          simp at ht
          refine ⟨?_, ?_⟩
          · simp only [if_true, optCount, allocCount]
            omega
          · intro v hv
            simp only [if_true] at hv
            exact ⟨bs, by simpa using hv.symm⟩

theorem parse_literal_spec (inp : List ℕ) (st : St) :
    ((parse_literal inp st).2.2).live =
      st.live + optCount (parse_literal inp st).1 ∧
    ∀ v, (parse_literal inp st).1 = some v → treeDepth v = 0 := by
  unfold parse_literal
  have ht := tryAlloc_live st
  rcases hp : tryAlloc st with ⟨ok, st1⟩
  rw [hp] at ht
  simp only at ht
  split_ifs <;> cases ok <;>
    simp_all [optCount, allocCount, treeDepth]

theorem parse_number_spec (inp : List ℕ) (st : St) :
    ((parse_number inp st).2.2).live =
      st.live + optCount (parse_number inp st).1 ∧
    ∀ v, (parse_number inp st).1 = some v → treeDepth v = 0 := by
  unfold parse_number
  generalize (match inp with | 45 :: _ => true | _ => false) = neg
  rcases hip : scanIntPart (if neg = true then inp.tail else inp)
    with _ | ⟨ids, t2⟩ <;> simp only [hip]
  · simp [optCount]
  · rcases hfp : scanFracPart t2 with _ | ⟨fds, t3⟩ <;> simp only [hfp]
    · simp [optCount]
    · rcases hep : scanExpPart t3 with _ | ⟨esign, eds, t4⟩ <;>
        simp only [hep]
      · simp [optCount]
      · generalize digitsVal ids * 10 ^ fds.length + digitsVal fds = M
        generalize ((if esign = true then -(digitsVal eds : ℤ)
          else (digitsVal eds : ℤ)) - fds.length : ℤ) = E
        cases hd : decToF64 neg M E with
        | finite s m e =>
          simp only [hd]
          split_ifs with hu ha
          · simp [optCount]
          · have ht := tryAlloc_live st
            rw [if_pos ha] at ht
            refine ⟨?_, ?_⟩
            · simp only [optCount, allocCount, ht]
            · intro v hv
              simp only [Option.some.injEq] at hv
              simp [hv.symm, treeDepth]
          · have ht := tryAlloc_live st
            rw [if_neg ha] at ht
            refine ⟨?_, ?_⟩
            · simp only [optCount, ht]
            · intro v hv
              simp at hv
        | inf s => simp [hd, optCount]
        | nan => simp [hd, optCount]

theorem freeTree_live (st : St) (v : Value) :
    (freeTree st v).live = st.live - allocCount v := by
  simp [freeTree, bump, sub_eq_add_neg]

theorem allocCount_varr_snoc (es : VList) (el : Value) :
    allocCount (.varr (es.snoc el)) =
      allocCount (.varr es) + allocCount el +
        (match es with | .nil => 1 | _ => 0) := by
  cases es <;>
    simp [allocCount, allocCountL, allocCountL_snoc, VList.snoc] <;> ring

theorem allocCount_vobj_snoc (ks : List (List ℕ)) (vs : VList)
    (k : List ℕ) (v : Value) :
    allocCount (.vobj (ks ++ [k]) (vs.snoc v)) =
      allocCount (.vobj ks vs) + allocCount v + 1 +
        (match ks with | [] => 1 | _ => 0) +
        (match vs with | .nil => 1 | _ => 0) := by
  cases ks <;> cases vs <;>
    simp [allocCount, allocCountL, allocCountL_snoc, VList.snoc] <;> ring

theorem rjson_object_add_raw_spec2 (st : St) (ks : List (List ℕ))
    (vs : VList) (k : List ℕ) (v : Value) :
    ((rjson_object_add_raw st ks vs k v).1 ≠ 0 →
      (rjson_object_add_raw st ks vs k v).2.1 = ks ∧
      (rjson_object_add_raw st ks vs k v).2.2.1 = vs ∧
      ((rjson_object_add_raw st ks vs k v).2.2.2.1).live = st.live) ∧
    ((rjson_object_add_raw st ks vs k v).1 = 0 →
      (rjson_object_add_raw st ks vs k v).2.1 = ks ++ [k] ∧
      (rjson_object_add_raw st ks vs k v).2.2.1 = vs.snoc v ∧
      ((rjson_object_add_raw st ks vs k v).2.2.2.1).live = st.live + 1 +
        (match ks with | [] => 1 | _ => 0) +
        (match vs with | .nil => 1 | _ => 0)) :=
  rjson_object_add_raw_spec st.oracle st.live ks vs k v

theorem rjson_array_add_spec (st : St) (es : VList) (el : Value) :
    ((rjson_array_add st (some (.varr es)) (some el)).1 ≠ 0 →
      (rjson_array_add st (some (.varr es)) (some el)).2.1 =
        some (.varr es) ∧
      ((rjson_array_add st (some (.varr es)) (some el)).2.2).live =
        st.live) ∧
    ((rjson_array_add st (some (.varr es)) (some el)).1 = 0 →
      (rjson_array_add st (some (.varr es)) (some el)).2.1 =
        some (.varr (es.snoc el)) ∧
      ((rjson_array_add st (some (.varr es)) (some el)).2.2).live =
        st.live + (match es with | .nil => 1 | _ => 0)) := by
  cases st with | mk o l =>
  cases o with
  | nil => cases es <;> simp [rjson_array_add, allocTake, bump]
  | cons b rest =>
    cases b <;> cases es <;> simp [rjson_array_add, allocTake, bump]

/-! ## C9: release of partially constructed nodes on decode failure -/

/-- C9, refuted on a reachable failure path.  Decoding `{"a":1}` with
every allocation succeeding yields the expected one-member object.  When
the seventh allocation — the `values` growth inside `rjson_object_add`,
after the key copy and the `keys` growth succeeded on the empty object —
fails instead, the fresh `keys` buffer is released twice: once by the
discarded `realloc(keys, 0)` shrink inside the failed add, and once more
by `free(obj->keys)` inside the `rjson_free(obj_val)` of
`parse_object`'s error path, because the failed add left the dangling
pointer stored in the object.  The ledger, which counts every
allocation `+1` and every release `-1`, therefore ends at `-1` instead
of `0`: one buffer was released twice, not exactly once. -/
theorem c9_object_add_failure_frees_twice :
    rjson_parse [123, 34, 97, 34, 58, 49, 125] =
      some (.vobj [[97]]
        (.cons (.vnum (.finite false (2 ^ 52) (-52))) .nil)) ∧
    rjson_parseSt [123, 34, 97, 34, 58, 49, 125]
        [true, true, true, true, true, true, false] =
      (none, ⟨[], -1⟩) :=
  ⟨rfl, rfl⟩

/-! ## C2: the depth guard -/

mutual
theorem depth_value : ∀ (f : ℕ) (inp : List ℕ) (d : ℕ) (st : St)
    (v : Value) (rest : List ℕ) (st1 : St),
    (parseFns f).value inp d st = (some v, rest, st1) →
    treeDepth v = 0 ∨ treeDepth v + d ≤ 512
  | 0, inp, d, st, v, rest, st1 => by
    intro h
    simp [parseFns, fns0] at h
  | f + 1, inp, d, st, v, rest, st1 => by
    simp only [parseFns, fnsStep]
    rcases hw : skip_whitespace inp with _ | ⟨c, t⟩ <;> simp only [hw]
    · intro h
      simp at h
    · split_ifs with h1 h2 h3 h4 h5 <;> intro h
      · obtain ⟨bs, rfl⟩ := (parse_string_spec (c :: t) st).2 v (by rw [h])
        exact Or.inl rfl
      · exact Or.inr (depth_arr f (c :: t) d st v rest st1 h)
      · exact Or.inr (depth_obj f (c :: t) d st v rest st1 h)
      · exact Or.inl ((parse_literal_spec (c :: t) st).2 v (by rw [h]))
      · exact Or.inl ((parse_number_spec (c :: t) st).2 v (by rw [h]))
      · simp at h

theorem depth_arr : ∀ (f : ℕ) (inp : List ℕ) (d : ℕ) (st : St)
    (v : Value) (rest : List ℕ) (st1 : St),
    (parseFns f).arr inp d st = (some v, rest, st1) →
    treeDepth v + d ≤ 512
  | 0, inp, d, st, v, rest, st1 => by
    intro h
    simp [parseFns, fns0] at h
  | f + 1, inp, d, st, v, rest, st1 => by
    simp only [parseFns, fnsStep]
    by_cases hd : 512 ≤ d
    · rw [if_pos hd]
      intro h
      simp at h
    · rw [if_neg hd]
      rcases inp with _ | ⟨c, r⟩
      · intro h
        simp at h
      · rcases hp : tryAlloc st with ⟨ok, st0⟩
        cases ok with
        | false =>
          intro h
          simp at h
        | true =>
          simp only [if_true]
          split
          · intro h
            obtain ⟨h1, -, -⟩ : Value.varr .nil = v ∧ _ := by
              simpa using h
            subst h1
            simp [treeDepth, treeDepthL]
            omega
          · intro h
            exact depth_arrItems f _ d st0 .nil v _ _ (by omega)
              (by simp [treeDepthL]; omega) h

theorem depth_arrItems : ∀ (f : ℕ) (inp : List ℕ) (d : ℕ) (st : St)
    (es : VList) (v : Value) (rest : List ℕ) (st1 : St),
    d + 1 ≤ 512 → treeDepthL es + 1 + d ≤ 512 →
    (parseFns f).arrItems inp d st es = (some v, rest, st1) →
    treeDepth v + d ≤ 512
  | 0, inp, d, st, es, v, rest, st1 => by
    intro _ _ h
    simp [parseFns, fns0] at h
  | f + 1, inp, d, st, es, v, rest, st1 => by
    simp only [parseFns, fnsStep]
    intro hd1 hes
    rcases hV : (parseFns f).value inp (d + 1) st with ⟨ov, rest0, st0⟩
    cases ov with
    | none =>
      intro h
      simp at h
    | some el =>
      have hel := depth_value f inp (d + 1) st el rest0 st0 hV
      dsimp only
      by_cases hc : (rjson_array_add st0 (some (.varr es)) (some el)).1 = 0
      · rw [if_pos hc]
        have hsn := treeDepthL_snoc es el
        split
        · intro h
          obtain ⟨h1, -, -⟩ : Value.varr (es.snoc el) = v ∧ _ := by
            simpa using h
          subst h1
          simp only [treeDepth]
          omega
        · intro h
          refine depth_arrItems f _ d _ (es.snoc el) v _ _ hd1 ?_ h
          omega
        · intro h
          simp at h
      · rw [if_neg hc]
        intro h
        simp at h

theorem depth_obj : ∀ (f : ℕ) (inp : List ℕ) (d : ℕ) (st : St)
    (v : Value) (rest : List ℕ) (st1 : St),
    (parseFns f).obj inp d st = (some v, rest, st1) →
    treeDepth v + d ≤ 512
  | 0, inp, d, st, v, rest, st1 => by
    intro h
    simp [parseFns, fns0] at h
  | f + 1, inp, d, st, v, rest, st1 => by
    simp only [parseFns, fnsStep]
    by_cases hd : 512 ≤ d
    · rw [if_pos hd]
      intro h
      simp at h
    · rw [if_neg hd]
      rcases inp with _ | ⟨c, r⟩
      · intro h
        simp at h
      · rcases hp : tryAlloc st with ⟨ok, st0⟩
        cases ok with
        | false =>
          intro h
          simp at h
        | true =>
          simp only [if_true]
          split
          · intro h
            obtain ⟨h1, -, -⟩ : Value.vobj [] .nil = v ∧ _ := by
              simpa using h
            subst h1
            simp [treeDepth, treeDepthL]
            omega
          · intro h
            exact depth_objItems f _ d st0 [] .nil v _ _ (by omega)
              (by simp [treeDepthL]; omega) h

theorem depth_objItems : ∀ (f : ℕ) (inp : List ℕ) (d : ℕ) (st : St)
    (ks : List (List ℕ)) (vs : VList) (v : Value) (rest : List ℕ)
    (st1 : St),
    d + 1 ≤ 512 → treeDepthL vs + 1 + d ≤ 512 →
    (parseFns f).objItems inp d st ks vs = (some v, rest, st1) →
    treeDepth v + d ≤ 512
  | 0, inp, d, st, ks, vs, v, rest, st1 => by
    intro _ _ h
    simp [parseFns, fns0] at h
  | f + 1, inp, d, st, ks, vs, v, rest, st1 => by
    simp only [parseFns, fnsStep]
    intro hd1 hvs
    split
    · rename_i t heq
      rw [heq]
      have hs := parse_string_spec (34 :: t) st
      rcases hS : parse_string (34 :: t) st with ⟨okv, rest2, st2⟩
      rw [hS] at hs
      cases okv with
      | none =>
        intro h
        simp at h
      | some kv =>
        obtain ⟨bs, rfl⟩ := hs.2 kv rfl
        dsimp only
        split
        · rename_i r2 heq2
          rcases hV : (parseFns f).value r2 (d + 1) st2 with ⟨ov, r3, st3⟩
          cases ov with
          | none =>
            intro h
            simp at h
          | some w =>
            have hw := depth_value f r2 (d + 1) st2 w r3 st3 hV
            dsimp only
            by_cases hc : (rjson_object_add_raw st3 ks vs bs w).1 = 0
            · rw [if_pos hc]
              have hadd := rjson_object_add_raw_spec2 st3 ks vs bs w
              obtain ⟨hk1, hv1, hl1⟩ := hadd.2 hc
              have hsn := treeDepthL_snoc vs w
              split
              · intro h
                obtain ⟨h1, -, -⟩ :
                    Value.vobj (rjson_object_add_raw st3 ks vs bs w).2.1
                      (rjson_object_add_raw st3 ks vs bs w).2.2.1 = v ∧ _ := by
                  simpa using h
                subst h1
                rw [hv1]
                simp only [treeDepth]
                omega
              · intro h
                rw [hk1, hv1] at h
                refine depth_objItems f _ d _ (ks ++ [bs]) (vs.snoc w) v _ _
                  hd1 ?_ h
                omega
              · intro h
                simp at h
            · rw [if_neg hc]
              intro h
              simp at h
        · intro h
          simp at h
    · intro h
      simp at h
end

theorem parse_top_depth (f : ℕ) (s : List ℕ) (st : St) (v : Value) :
    (match (parseFns f).value s 0 st with
      | (none, _, st1) => ((none : Option Value), st1)
      | (some w, rest, st1) =>
        match skip_whitespace rest with
        | [] => (some w, st1)
        | _ => (none, freeTree st1 w)).1 = some v →
    treeDepth v ≤ 512 := by
  rcases hV : (parseFns f).value s 0 st with ⟨ov, rest, st1⟩
  cases ov with
  | none =>
    intro h
    simp at h
  | some w =>
    rcases hw : skip_whitespace rest with _ | ⟨c, t⟩ <;> simp only [hw]
    · intro h
      obtain rfl : w = v := by simpa using h
      have := depth_value f s 0 st w rest st1 hV
      omega
    · intro h
      simp at h

/-- Every byte of `nestIn n rest` is a bracket or comes from `rest`. -/
theorem nestIn_nonzero : ∀ (n : ℕ) (rest : List ℕ),
    (∀ x ∈ rest, x ≠ 0) → ∀ x ∈ nestIn n rest, x ≠ 0
  | 0, rest, h => h
  | n + 1, rest, h => by
    intro x hx
    simp only [nestIn, List.mem_cons] at hx
    rcases hx with rfl | hx
    · decide
    · exact nestIn_nonzero n (93 :: rest)
        (by intro y hy; rcases List.mem_cons.1 hy with rfl | hy
            · decide
            · exact h y hy) x hx

theorem nestIn_length : ∀ (n : ℕ) (rest : List ℕ),
    (nestIn n rest).length = 2 * n + rest.length
  | 0, rest => by simp [nestIn]
  | n + 1, rest => by
    simp [nestIn, nestIn_length n (93 :: rest)]
    omega

/-- Parsing `n` nested arrays (`n ≥ 1`) with enough fuel and depth
room succeeds, consuming `2n` bytes and allocating `2n - 1` nodes. -/
theorem parse_nest : ∀ (n f d : ℕ) (l : ℤ) (rest : List ℕ),
    1 ≤ n → n + d ≤ 512 → 3 * n + 3 ≤ f →
    (parseFns f).value (nestIn n rest) d ⟨[], l⟩ =
      (some (nestedArr (n - 1)), rest, ⟨[], l + (2 * (n : ℤ) - 1)⟩)
  | 0, f, d, l, rest => by omega
  | 1, f, d, l, rest => by
    intro h1 h2 h3
    obtain ⟨f2, rfl⟩ : ∃ f2, f = f2 + 2 := ⟨f - 2, by omega⟩
    have hd : ¬ 512 ≤ d := by omega
    show (parseFns (f2 + 2)).value (91 :: 93 :: rest) d ⟨[], l⟩ = _
    simp [parseFns, fnsStep, skip_whitespace, tryAlloc, allocTake, bump,
      hd, nestedArr]
  | n + 2, f, d, l, rest => by
    intro h1 h2 h3
    obtain ⟨f3, rfl⟩ : ∃ f3, f = f3 + 3 := ⟨f - 3, by omega⟩
    have hih := parse_nest (n + 1) f3 (d + 1) (l + 1) (93 :: rest)
      (by omega) (by omega) (by omega)
    have hd : ¬ 512 ≤ d := by omega
    show (parseFns (f3 + 3)).value
      (91 :: nestIn (n + 1) (93 :: rest)) d ⟨[], l⟩ = _
    rw [show nestIn (n + 1) (93 :: rest) =
      91 :: nestIn n (93 :: 93 :: rest) from rfl]
    simp only [parseFns, fnsStep]
    rw [show skip_whitespace (91 :: 91 :: nestIn n (93 :: 93 :: rest)) =
      91 :: 91 :: nestIn n (93 :: 93 :: rest) by simp [skip_whitespace]]
    norm_num
    rw [if_neg hd]
    rw [show tryAlloc ⟨[], l⟩ = (true, ⟨[], l + 1⟩) from rfl]
    simp only [if_true]
    rw [show skip_whitespace (91 :: nestIn n (93 :: 93 :: rest)) =
      91 :: nestIn n (93 :: 93 :: rest) by simp [skip_whitespace]]
    rw [show (91 :: nestIn n (93 :: 93 :: rest)) =
      nestIn (n + 1) (93 :: rest) from rfl]
    rw [hih]
    rw [show nestIn (n + 1) (93 :: rest) =
      91 :: nestIn n (93 :: 93 :: rest) from rfl]
    dsimp only
    simp [rjson_array_add, allocTake, bump, skip_whitespace, VList.snoc,
      nestedArr]
    ring

/-- C2 counterexample: the claim says every input with structural
nesting at least 512 fails, but the input of 512 nested arrays parses
successfully (the innermost array is entered with depth 511 < 512). -/
theorem c2_counterexample : (rjson_parse (nestInput 512)).isSome = true := by
  have hnz : ∀ x ∈ nestIn 512 [], (fun b => decide (b ≠ 0)) x = true := by
    intro x hx
    simpa using nestIn_nonzero 512 [] (by simp) x hx
  have htw : (nestIn 512 []).takeWhile (· ≠ 0) = nestIn 512 [] :=
    takeWhile_all _ _ hnz
  have hbom : ¬ (nestIn 512 []).take 3 = [239, 187, 191] := by decide
  have hlen : (nestIn 512 []).length = 1024 := by
    rw [nestIn_length]
    rfl
  have hp := parse_nest 512 (2 * 1024 + 8) 0 0 [] (by omega) (by omega)
    (by omega)
  unfold rjson_parse rjson_parseSt nestInput
  simp only [htw, if_neg hbom, hlen]
  rw [hp]
  rfl

/-- C2, amended.  Entering array or object parsing with depth at least
512 (`RJSON_MAX_DEPTH`) fails immediately, with input and heap state
untouched; the top-level array or object is entered with depth 0 and
each nested one with depth one greater, so every successfully parsed
tree has structural nesting depth at most 512 — inputs with nesting at
least 513 fail, while nesting exactly 512 is still accepted. -/
theorem c2_depth_guard :
    (∀ (f : ℕ) (inp : List ℕ) (d : ℕ) (st : St), 512 ≤ d →
      (parseFns f).arr inp d st = (none, inp, st)) ∧
    (∀ (f : ℕ) (inp : List ℕ) (d : ℕ) (st : St), 512 ≤ d →
      (parseFns f).obj inp d st = (none, inp, st)) ∧
    (∀ (input : List ℕ) (v : Value), rjson_parse input = some v →
      treeDepth v ≤ 512) := by
  refine ⟨?_, ?_, ?_⟩
  · intro f inp d st hd
    cases f with
    | zero => rfl
    | succ f => simp [parseFns, fnsStep, hd]
  · intro f inp d st hd
    cases f with
    | zero => rfl
    | succ f => simp [parseFns, fnsStep, hd]
  · intro input v h
    unfold rjson_parse rjson_parseSt at h
    exact parse_top_depth _ _ _ v h

/-- Witness for `c2_depth_guard`: the guard fires at depth 512, and the
tree parsed from `"[]"` respects the depth bound. -/
theorem c2_depth_guard_witness :
    (parseFns 5).arr [91] 512 ⟨[], 0⟩ = (none, [91], ⟨[], 0⟩) ∧
    (parseFns 5).obj [123] 512 ⟨[], 0⟩ = (none, [123], ⟨[], 0⟩) ∧
    treeDepth (.varr .nil) ≤ 512 :=
  ⟨c2_depth_guard.1 5 [91] 512 ⟨[], 0⟩ (by omega),
   c2_depth_guard.2.1 5 [123] 512 ⟨[], 0⟩ (by omega),
   c2_depth_guard.2.2 [91, 93] (.varr .nil) rfl⟩

end RJson
